import Mathlib

/-!
Verification of the `rslru` LRU cache (`src/lib.rs`).

The source is a doubly linked list of heap-allocated entries (`Item<K, V>`)
threaded through raw `NonNull` pointers, plus a `HashMap` index from (a
pointer to) the key to the entry pointer, wrapped in `Internal` / `LRU`.

Shallow embedding conventions:

* A raw pointer `NonNull<Item<K, V>>` is modelled as a `Nat` id into a ghost
  heap (`Chain.heap`, an association list `id ↦ Item`).  Allocation
  (`Box::leak(Box::new _)` in `List::push_front`) conses a fresh id; ids are
  never reused, mirroring the fact that the source never re-derives a pointer
  from a reallocation.  Deallocation (`Box::from_raw` on eviction) is
  recorded in the ghost field `Internal.freed`; the heap keeps the entry's
  last contents, so reads/writes through a stale pointer (which the source
  performs, as undefined behaviour that its own test suite relies on) behave
  as "freed memory is neither reused nor clobbered" — the deterministic
  refinement of the source's behaviour under which its tests pass.
* `HashMap<KeyRef<K>, NonNull<Item<K, V>>>` is modelled as an association
  list `List (K × Nat)`: `KeyRef<K>` hashes and compares the pointed-to key
  with `K`'s own `Hash`/`Eq`, so the index behaves exactly as a map keyed by
  `K` (hash-table layout is unobservable).  `insert` replaces an existing
  binding, `remove` deletes it, `len` is the number of bindings.
* Source reads of pointer fields are re-performed in source order, so the
  model is faithful even under aliasing.  Pointer dereferences in the source
  are always of previously allocated ids, so the heap lookups they become
  always succeed; the `none` fallbacks required to make the Lean functions
  total are unreachable and marked as such.
-/

namespace Rslru

/-- Association-list lookup: first binding for the key, as used by the
`HashMap` model and the ghost heap. -/
def alookup {α β : Type} [DecidableEq α] : List (α × β) → α → Option β
  | [], _ => none
  | (a, b) :: rest, x => if a = x then some b else alookup rest x

/-- Association-list removal of the (first) binding for a key:
`HashMap::remove`. -/
def aerase {α β : Type} [DecidableEq α] : List (α × β) → α → List (α × β)
  | [], _ => []
  | (a, b) :: rest, x => if a = x then rest else (a, b) :: aerase rest x

/-- Update the (first) binding for a key in place; used both for writes
through a pointer into the ghost heap and for `HashMap::insert` on a present
key. -/
def amodify {α β : Type} [DecidableEq α] : List (α × β) → α → (β → β) → List (α × β)
  | [], _, _ => []
  | (a, b) :: rest, x, f => if a = x then (a, f b) :: rest else (a, b) :: amodify rest x f

/-- `HashMap::insert`: replace the binding if the key is present, otherwise
add a new one. -/
def ainsert {α β : Type} [DecidableEq α] (l : List (α × β)) (x : α) (b : β) :
    List (α × β) :=
  if (alookup l x).isSome then amodify l x (fun _ => b) else (x, b) :: l

/-- Source `struct Item<K, V>`: one cache entry holding a key, a value and
the `next`/`prev` links of the recency chain (pointers become optional heap
ids). -/
structure Item (K V : Type) where
  key : K
  val : V
  next : Option Nat
  prev : Option Nat
deriving Repr, DecidableEq

/-- Source `struct List<K, V>` (the entry chain): `head`/`tail` pointers,
together with the ghost allocator state the source keeps in the global heap:
`heap` maps each ever-allocated id to the entry's current contents (freed
entries keep their last contents, see the file header), and `nextId` is the
next fresh id. -/
structure Chain (K V : Type) where
  heap : List (Nat × Item K V)
  nextId : Nat
  head : Option Nat
  tail : Option Nat
deriving Repr, DecidableEq

/-- Source `List::new`. -/
def Chain.new (K V : Type) : Chain K V :=
  { heap := [], nextId := 0, head := none, tail := none }

/-- Source `List::push_front`: allocate a new entry whose `next` is the old
head and whose `prev` is none; if the chain had no head the new entry also
becomes the tail, otherwise the old head's `prev` is pointed at it; the new
entry becomes the head.  Returns the new entry's id alongside the new
state. -/
def Chain.pushFront {K V : Type} (c : Chain K V) (key : K) (val : V) :
    Chain K V × Nat :=
  let id := c.nextId
  let it : Item K V := { key := key, val := val, next := c.head, prev := none }
  let heap1 := (id, it) :: c.heap
  match c.head with
  | none =>
      ({ heap := heap1, nextId := id + 1, head := some id, tail := some id }, id)
  | some h =>
      let heap2 := amodify heap1 h (fun hi => { hi with prev := some id })
      ({ heap := heap2, nextId := id + 1, head := some id, tail := c.tail }, id)

/-- Source `List::move_to_front`.  Returns immediately when the entry's
`prev` is none; otherwise: if the tail is this entry the tail moves to its
`prev`; the neighbours are linked around it (each dereference re-read in
source order); the entry is relinked before the old head, whose `prev` is
pointed back at it; the entry becomes the head. -/
def Chain.moveToFront {K V : Type} (c : Chain K V) (id : Nat) : Chain K V :=
  match alookup c.heap id with
  | none => c
  | some it0 =>
    if it0.prev = none then c
    else
      let c1 := if c.tail = some id then { c with tail := it0.prev } else c
      let heap2 :=
        match it0.prev with
        | some p => amodify c1.heap p (fun pi => { pi with next := it0.next })
        | none => c1.heap
      let it2 := (alookup heap2 id).getD it0
      let heap3 :=
        match it2.next with
        | some n => amodify heap2 n (fun ni => { ni with prev := it2.prev })
        | none => heap2
      let heap4 := amodify heap3 id (fun ii => { ii with next := c1.head, prev := none })
      let heap5 :=
        match c1.head with
        | some h => amodify heap4 h (fun hi => { hi with prev := some id })
        | none => heap4
      { heap := heap5, nextId := c1.nextId, head := some id, tail := c1.tail }

/-- Source `List::pop_back`: if there is no tail, return none; otherwise set
the tail to none, then, if the popped entry has a `prev`, clear that
neighbour's `next` and make it the new tail.  The popped entry's id is
returned; the source never touches `head` here. -/
def Chain.popBack {K V : Type} (c : Chain K V) : Chain K V × Option Nat :=
  match c.tail with
  | none => (c, none)
  | some t =>
    let c1 := { c with tail := none }
    match (alookup c1.heap t).bind (fun ti => ti.prev) with
    | some p =>
        let heap2 := amodify c1.heap p (fun pi => { pi with next := none })
        ({ c1 with heap := heap2, tail := some p }, some t)
    | none => (c1, some t)

/-- Source `struct Internal<K, V>`: the index (`map`), the entry chain
(`items`) and the fixed capacity (`max_len`), plus the ghost record `freed`
of ids deallocated so far (each `Box::from_raw` appends one). -/
structure Internal (K V : Type) where
  map : List (K × Nat)
  items : Chain K V
  max_len : Nat
  freed : List Nat
deriving Repr, DecidableEq

/-- Source `Internal::new` (the map's pre-sized capacity `len + 1` has no
observable effect and is not modelled). -/
def Internal.new (K V : Type) (len : Nat) : Internal K V :=
  { map := [], items := Chain.new K V, max_len := len, freed := [] }

/-- Source `Internal::put`.  On a hit the entry's value is swapped with the
argument (the old value is returned) and the entry is moved to the front.
On a miss, when `map.len() >= max_len` the chain's back entry (if any) is
popped, its key removed from the index and the entry deallocated; then a new
entry is pushed at the front and indexed under the key read back from the
entry. -/
def Internal.put {K V : Type} [DecidableEq K] (s : Internal K V) (key : K) (val : V) :
    Internal K V × Option V :=
  match alookup s.map key with
  | some id =>
    match alookup s.items.heap id with
    | some it =>
        let heap1 := amodify s.items.heap id (fun ii => { ii with val := val })
        let items1 := { s.items with heap := heap1 }
        let items2 := Chain.moveToFront items1 id
        ({ s with items := items2 }, some it.val)
    | none => (s, none)
  | none =>
    let s1 :=
      if s.map.length ≥ s.max_len then
        match Chain.popBack s.items with
        | (items1, some t) =>
          let map1 :=
            match alookup items1.heap t with
            | some ti => aerase s.map ti.key
            | none => s.map
          { s with map := map1, items := items1, freed := t :: s.freed }
        | (items1, none) => { s with items := items1 }
      else s
    let pushed := Chain.pushFront s1.items key val
    let map2 :=
      match alookup pushed.1.heap pushed.2 with
      | some it2 => ainsert s1.map it2.key pushed.2
      | none => s1.map
    ({ s1 with map := map2, items := pushed.1 }, none)

/-- Source `Internal::get_item`: on a hit, move the entry to the front and
return its id; on a miss, return none and leave the state untouched. -/
def Internal.getItem {K V : Type} [DecidableEq K] (s : Internal K V) (key : K) :
    Internal K V × Option Nat :=
  match alookup s.map key with
  | some id => ({ s with items := Chain.moveToFront s.items id }, some id)
  | none => (s, none)

/-- Source `impl Drop for Internal`: pop the chain's back entry until the
chain reports empty.  The body runs `Box::from(item.as_ptr())`, which boxes
the raw pointer *value* (`impl From<T> for Box<T>`) rather than retaking
ownership with `Box::from_raw`, so no entry is deallocated: nothing is added
to `freed`.  The `while let` loop is modelled with fuel (one more than the
number of allocations bounds the iterations the source can make). -/
def Internal.dropLoop {K V : Type} : Nat → Internal K V → Internal K V
  | 0, s => s
  | fuel + 1, s =>
    match Chain.popBack s.items with
    | (items1, some _) => Internal.dropLoop fuel { s with items := items1 }
    | (items1, none) => { s with items := items1 }

/-- The full teardown of `Internal` (source `Drop::drop`). -/
def Internal.dropAll {K V : Type} (s : Internal K V) : Internal K V :=
  Internal.dropLoop (s.items.heap.length + 1) s

/-- Source `LRU::new`: the public cache is a `RefCell` around `Internal`;
its state is `Internal`'s. -/
def LRU.new (K V : Type) (len : Nat) : Internal K V :=
  Internal.new K V len

/-- Source `LRU::put`: delegates to `Internal::put`. -/
def LRU.put {K V : Type} [DecidableEq K] (s : Internal K V) (key : K) (val : V) :
    Internal K V × Option V :=
  Internal.put s key val

/-- Source `LRU::get`: `get_item` then read the value through the returned
entry pointer. -/
def LRU.get {K V : Type} [DecidableEq K] (s : Internal K V) (key : K) :
    Internal K V × Option V :=
  let r := Internal.getItem s key
  (r.1, r.2.bind (fun id => (alookup r.1.items.heap id).map (fun it => it.val)))

/-- Source `LRU::get_mut`: same lookup and repositioning as `get`; the
mutable reference it returns is observationally the entry's value. -/
def LRU.getMut {K V : Type} [DecidableEq K] (s : Internal K V) (key : K) :
    Internal K V × Option V :=
  let r := Internal.getItem s key
  (r.1, r.2.bind (fun id => (alookup r.1.items.heap id).map (fun it => it.val)))

/-- Source `LRU::count`: the index's `len()`. -/
def LRU.count {K V : Type} (s : Internal K V) : Nat :=
  s.map.length

/-- The key stored at a heap id, if allocated. -/
def keyOf {K V : Type} (o : Option (Item K V)) : Option K :=
  o.map Item.key

/-- The value stored at a heap id, if allocated. -/
def valOf {K V : Type} (o : Option (Item K V)) : Option V :=
  o.map Item.val

/-- The `prev` link stored at a heap id, if allocated. -/
def prevOf {K V : Type} (o : Option (Item K V)) : Option (Option Nat) :=
  o.map Item.prev

/-- The value currently stored for a key: the index binding followed through
the heap.  This is the pure observation that `get` returns. -/
def lookupVal {K V : Type} [DecidableEq K] (s : Internal K V) (k : K) : Option V :=
  (alookup s.map k).bind (fun id => valOf (alookup s.items.heap id))

/-- The keys met when walking the chain from the front along `next` links
(fuelled; the fuel `heap.length + 1` dominates any terminating walk). -/
def walkKeys {K V : Type} (heap : List (Nat × Item K V)) :
    Option Nat → Nat → List K
  | none, _ => []
  | some _, 0 => []
  | some id, fuel + 1 =>
    match alookup heap id with
    | none => []
    | some it => it.key :: walkKeys heap it.next fuel

/-- The chain iterated front to back, as a list of keys. -/
def chainKeys {K V : Type} (c : Chain K V) : List K :=
  walkKeys c.heap c.head (c.heap.length + 1)

/-- The cache states reachable from a fresh cache through the public
operations (`count` does not change state). -/
inductive Reachable {K V : Type} [DecidableEq K] : Internal K V → Prop where
  | new (n : Nat) : Reachable (LRU.new K V n)
  | put {s : Internal K V} (k : K) (v : V) : Reachable s → Reachable (LRU.put s k v).1
  | get {s : Internal K V} (k : K) : Reachable s → Reachable (LRU.get s k).1
  | getMut {s : Internal K V} (k : K) : Reachable s → Reachable (LRU.getMut s k).1

/-- The structural chain invariant that every reachable cache maintains:
ids are below the allocation counter, an entry's `prev` is none exactly when
the head points at it, and the head always points at an allocated entry. -/
structure ChainInv {K V : Type} (c : Chain K V) : Prop where
  fresh : ∀ id, (alookup c.heap id).isSome → id < c.nextId
  frontP : ∀ id it, alookup c.heap id = some it → (it.prev = none ↔ c.head = some id)
  headAlloc : ∀ h, c.head = some h → (alookup c.heap h).isSome = true

/-- The cache invariant: index keys are distinct, every index binding leads
to an allocated entry carrying that very key, and the chain invariant
holds. -/
structure Inv {K V : Type} [DecidableEq K] (s : Internal K V) : Prop where
  mapNodup : (s.map.map Prod.fst).Nodup
  mapHeap : ∀ k id, alookup s.map k = some id →
      ∃ it, alookup s.items.heap id = some it ∧ it.key = k
  chain : ChainInv s.items

section AssocLemmas

variable {α β : Type} [DecidableEq α]

theorem alookup_amodify (l : List (α × β)) (x : α) (f : β → β) (y : α) :
    alookup (amodify l x f) y = if y = x then (alookup l x).map f else alookup l y := by
  induction l with
  | nil => simp [alookup, amodify]
  | cons hd tl ih =>
    obtain ⟨a, b⟩ := hd
    by_cases hax : a = x
    · subst hax
      by_cases hya : y = a
      · subst hya; simp [alookup, amodify]
      · simp [alookup, amodify, hya, Ne.symm hya]
    · by_cases hay : a = y
      · have hyx : y ≠ x := fun hc => hax (hay.trans hc)
        simp [alookup, amodify, hax, hay, hyx]
      · simp [alookup, amodify, hax, hay, ih]

theorem alookup_aerase_ne (l : List (α × β)) (x y : α) (h : y ≠ x) :
    alookup (aerase l x) y = alookup l y := by
  induction l with
  | nil => simp [alookup, aerase]
  | cons hd tl ih =>
    obtain ⟨a, b⟩ := hd
    by_cases hax : a = x
    · subst hax
      simp [alookup, aerase, Ne.symm h]
    · by_cases hay : a = y
      · subst hay; simp [alookup, aerase, hax]
      · simp [alookup, aerase, hax, hay, ih]

theorem alookup_eq_none_iff (l : List (α × β)) (x : α) :
    alookup l x = none ↔ x ∉ l.map Prod.fst := by
  induction l with
  | nil => simp [alookup]
  | cons hd tl ih =>
    obtain ⟨a, b⟩ := hd
    by_cases hax : a = x
    · subst hax; simp [alookup]
    · simp [alookup, hax, ih, Ne.symm hax]

theorem alookup_aerase_self (l : List (α × β)) (x : α)
    (h : (l.map Prod.fst).Nodup) : alookup (aerase l x) x = none := by
  induction l with
  | nil => simp [alookup, aerase]
  | cons hd tl ih =>
    obtain ⟨a, b⟩ := hd
    simp only [List.map_cons, List.nodup_cons] at h
    by_cases hax : a = x
    · subst hax
      simp only [aerase, if_pos rfl]
      exact (alookup_eq_none_iff tl a).2 h.1
    · simp [alookup, aerase, hax, ih h.2]

theorem alookup_aerase_sub (l : List (α × β)) (x y : α) (b : β)
    (hnd : (l.map Prod.fst).Nodup) (h : alookup (aerase l x) y = some b) :
    alookup l y = some b := by
  by_cases hyx : y = x
  · subst hyx
    rw [alookup_aerase_self l y hnd] at h
    exact absurd h (by simp)
  · rwa [alookup_aerase_ne l x y hyx] at h

theorem keys_amodify (l : List (α × β)) (x : α) (f : β → β) :
    (amodify l x f).map Prod.fst = l.map Prod.fst := by
  induction l with
  | nil => simp [amodify]
  | cons hd tl ih =>
    obtain ⟨a, b⟩ := hd
    by_cases hax : a = x
    · subst hax; simp [amodify]
    · simp [amodify, hax, ih]

theorem keys_aerase_sublist (l : List (α × β)) (x : α) :
    ((aerase l x).map Prod.fst).Sublist (l.map Prod.fst) := by
  induction l with
  | nil => simp [aerase]
  | cons hd tl ih =>
    obtain ⟨a, b⟩ := hd
    by_cases hax : a = x
    · subst hax
      simp only [aerase, if_pos rfl, List.map_cons]
      exact List.sublist_cons_self a (tl.map Prod.fst)
    · simp only [aerase, if_neg hax, List.map_cons]
      exact ih.cons₂ a

theorem nodup_aerase (l : List (α × β)) (x : α)
    (h : (l.map Prod.fst).Nodup) : ((aerase l x).map Prod.fst).Nodup :=
  (keys_aerase_sublist l x).nodup h

theorem alookup_ainsert (l : List (α × β)) (x : α) (b : β) (y : α) :
    alookup (ainsert l x b) y = if y = x then some b else alookup l y := by
  unfold ainsert
  by_cases hs : (alookup l x).isSome
  · rw [if_pos hs, alookup_amodify]
    by_cases hyx : y = x
    · subst hyx
      obtain ⟨b0, hb0⟩ := Option.isSome_iff_exists.1 hs
      simp [hb0]
    · simp [hyx]
  · rw [if_neg hs]
    by_cases hyx : y = x
    · subst hyx; simp [alookup]
    · simp [alookup, Ne.symm hyx, hyx]

theorem nodup_ainsert (l : List (α × β)) (x : α) (b : β)
    (h : (l.map Prod.fst).Nodup) : ((ainsert l x b).map Prod.fst).Nodup := by
  unfold ainsert
  by_cases hs : (alookup l x).isSome
  · rw [if_pos hs, keys_amodify]; exact h
  · rw [if_neg hs]
    simp only [List.map_cons, List.nodup_cons]
    refine ⟨?_, h⟩
    have : alookup l x = none := Option.not_isSome_iff_eq_none.1 hs
    exact (alookup_eq_none_iff l x).1 this

theorem isSome_alookup_amodify (l : List (α × β)) (x : α) (f : β → β) (y : α) :
    (alookup (amodify l x f) y).isSome = (alookup l y).isSome := by
  rw [alookup_amodify]
  by_cases hyx : y = x
  · subst hyx; simp
  · simp [hyx]

theorem bind_some_eq {A B : Type} (a : A) (f : A → Option B) : (some a).bind f = f a :=
  rfl

end AssocLemmas

section ChainLemmas

variable {K V : Type}

theorem keyOf_amodify_of (l : List (Nat × Item K V)) (x : Nat) (f : Item K V → Item K V)
    (hf : ∀ b, (f b).key = b.key) (y : Nat) :
    keyOf (alookup (amodify l x f) y) = keyOf (alookup l y) := by
  rw [alookup_amodify]
  by_cases h : y = x
  · subst h; cases alookup l y <;> simp [keyOf, hf]
  · simp [h]

theorem valOf_amodify_of (l : List (Nat × Item K V)) (x : Nat) (f : Item K V → Item K V)
    (hf : ∀ b, (f b).val = b.val) (y : Nat) :
    valOf (alookup (amodify l x f) y) = valOf (alookup l y) := by
  rw [alookup_amodify]
  by_cases h : y = x
  · subst h; cases alookup l y <;> simp [valOf, hf]
  · simp [h]

theorem prevOf_amodify_of (l : List (Nat × Item K V)) (x : Nat) (f : Item K V → Item K V)
    (hf : ∀ b, (f b).prev = b.prev) (y : Nat) :
    prevOf (alookup (amodify l x f) y) = prevOf (alookup l y) := by
  rw [alookup_amodify]
  by_cases h : y = x
  · subst h; cases alookup l y <;> simp [prevOf, hf]
  · simp [h]

theorem keyOf_amodify_next (l : List (Nat × Item K V)) (x : Nat) (q : Option Nat) (y : Nat) :
    keyOf (alookup (amodify l x (fun b => { b with next := q })) y) = keyOf (alookup l y) :=
  keyOf_amodify_of l x (fun b => { b with next := q }) (fun _ => rfl) y

theorem keyOf_amodify_prev (l : List (Nat × Item K V)) (x : Nat) (q : Option Nat) (y : Nat) :
    keyOf (alookup (amodify l x (fun b => { b with prev := q })) y) = keyOf (alookup l y) :=
  keyOf_amodify_of l x (fun b => { b with prev := q }) (fun _ => rfl) y

theorem keyOf_amodify_nextprev (l : List (Nat × Item K V)) (x : Nat) (q r : Option Nat) (y : Nat) :
    keyOf (alookup (amodify l x (fun b => { b with next := q, prev := r })) y) =
      keyOf (alookup l y) :=
  keyOf_amodify_of l x (fun b => { b with next := q, prev := r }) (fun _ => rfl) y

theorem keyOf_amodify_val (l : List (Nat × Item K V)) (x : Nat) (v : V) (y : Nat) :
    keyOf (alookup (amodify l x (fun b => { b with val := v })) y) = keyOf (alookup l y) :=
  keyOf_amodify_of l x (fun b => { b with val := v }) (fun _ => rfl) y

theorem valOf_amodify_next (l : List (Nat × Item K V)) (x : Nat) (q : Option Nat) (y : Nat) :
    valOf (alookup (amodify l x (fun b => { b with next := q })) y) = valOf (alookup l y) :=
  valOf_amodify_of l x (fun b => { b with next := q }) (fun _ => rfl) y

theorem valOf_amodify_prev (l : List (Nat × Item K V)) (x : Nat) (q : Option Nat) (y : Nat) :
    valOf (alookup (amodify l x (fun b => { b with prev := q })) y) = valOf (alookup l y) :=
  valOf_amodify_of l x (fun b => { b with prev := q }) (fun _ => rfl) y

theorem valOf_amodify_nextprev (l : List (Nat × Item K V)) (x : Nat) (q r : Option Nat) (y : Nat) :
    valOf (alookup (amodify l x (fun b => { b with next := q, prev := r })) y) =
      valOf (alookup l y) :=
  valOf_amodify_of l x (fun b => { b with next := q, prev := r }) (fun _ => rfl) y

theorem prevOf_amodify_next (l : List (Nat × Item K V)) (x : Nat) (q : Option Nat) (y : Nat) :
    prevOf (alookup (amodify l x (fun b => { b with next := q })) y) = prevOf (alookup l y) :=
  prevOf_amodify_of l x (fun b => { b with next := q }) (fun _ => rfl) y

theorem prevOf_amodify_val (l : List (Nat × Item K V)) (x : Nat) (v : V) (y : Nat) :
    prevOf (alookup (amodify l x (fun b => { b with val := v })) y) = prevOf (alookup l y) :=
  prevOf_amodify_of l x (fun b => { b with val := v }) (fun _ => rfl) y

theorem moveToFront_nextId (c : Chain K V) (id : Nat) :
    (c.moveToFront id).nextId = c.nextId := by
  unfold Chain.moveToFront
  cases hh : alookup c.heap id with
  | none => rfl
  | some it0 =>
    by_cases hp : it0.prev = none
    · simp [hp]
    · simp only [if_neg hp]
      by_cases ht : c.tail = some id <;> simp [ht]

theorem moveToFront_keyOf (c : Chain K V) (id jd : Nat) :
    keyOf (alookup (c.moveToFront id).heap jd) = keyOf (alookup c.heap jd) := by
  unfold Chain.moveToFront
  cases hh : alookup c.heap id with
  | none => rfl
  | some it0 =>
    by_cases hp : it0.prev = none
    · simp [hp]
    · simp only [if_neg hp]
      by_cases ht : c.tail = some id <;>
      · simp only [ht, ite_true, ite_false, if_pos, if_neg, not_false_iff]
        cases hprev : it0.prev with
        | none => exact absurd hprev hp
        | some p =>
          cases hit2 : alookup (amodify c.heap p fun pi => { pi with next := it0.next }) id with
          | none =>
            cases hnext : it0.next <;> cases hhd : c.head <;>
              simp [hprev, hit2, hnext, hhd, keyOf_amodify_next, keyOf_amodify_prev,
                keyOf_amodify_nextprev]
          | some it2 =>
            cases hnext : it2.next <;> cases hhd : c.head <;>
              simp [hprev, hit2, hnext, hhd, keyOf_amodify_next, keyOf_amodify_prev,
                keyOf_amodify_nextprev]

theorem moveToFront_valOf (c : Chain K V) (id jd : Nat) :
    valOf (alookup (c.moveToFront id).heap jd) = valOf (alookup c.heap jd) := by
  unfold Chain.moveToFront
  cases hh : alookup c.heap id with
  | none => rfl
  | some it0 =>
    by_cases hp : it0.prev = none
    · simp [hp]
    · simp only [if_neg hp]
      by_cases ht : c.tail = some id <;>
      · simp only [ht, ite_true, ite_false, if_pos, if_neg, not_false_iff]
        cases hprev : it0.prev with
        | none => exact absurd hprev hp
        | some p =>
          cases hit2 : alookup (amodify c.heap p fun pi => { pi with next := it0.next }) id with
          | none =>
            cases hnext : it0.next <;> cases hhd : c.head <;>
              simp [hprev, hit2, hnext, hhd, valOf_amodify_next, valOf_amodify_prev,
                valOf_amodify_nextprev]
          | some it2 =>
            cases hnext : it2.next <;> cases hhd : c.head <;>
              simp [hprev, hit2, hnext, hhd, valOf_amodify_next, valOf_amodify_prev,
                valOf_amodify_nextprev]

theorem moveToFront_isSome (c : Chain K V) (id jd : Nat) :
    (alookup (c.moveToFront id).heap jd).isSome = (alookup c.heap jd).isSome := by
  have hk := moveToFront_keyOf c id jd
  unfold keyOf at hk
  cases h1 : alookup (c.moveToFront id).heap jd <;> cases h2 : alookup c.heap jd <;>
    rw [h1, h2] at hk <;> simp_all

theorem moveToFront_head {c : Chain K V}
    (hfp : ∀ jd jt, alookup c.heap jd = some jt → (jt.prev = none ↔ c.head = some jd))
    {id : Nat} {it0 : Item K V} (hh : alookup c.heap id = some it0) :
    (c.moveToFront id).head = some id := by
  unfold Chain.moveToFront
  rw [hh]
  by_cases hp : it0.prev = none
  · simp only [if_pos hp]
    exact (hfp id it0 hh).1 hp
  · simp only [if_neg hp]

theorem prevOf_amodify_setprev (l : List (Nat × Item K V)) (x : Nat) (q : Option Nat)
    (y : Nat) :
    prevOf (alookup (amodify l x (fun b => { b with prev := q })) y) =
      if y = x then ((alookup l x).map fun _ => q) else prevOf (alookup l y) := by
  rw [alookup_amodify]
  by_cases h : y = x
  · subst h; cases alookup l y <;> simp [prevOf]
  · simp [h]

theorem prevOf_amodify_setnextprev (l : List (Nat × Item K V)) (x : Nat)
    (q r : Option Nat) (y : Nat) :
    prevOf (alookup (amodify l x (fun b => { b with next := q, prev := r })) y) =
      if y = x then ((alookup l x).map fun _ => r) else prevOf (alookup l y) := by
  rw [alookup_amodify]
  by_cases h : y = x
  · subst h; cases alookup l y <;> simp [prevOf]
  · simp [h]

theorem map_const_of_isSome_eq {A B C : Type} {o : Option A} {o' : Option B}
    (h : o.isSome = o'.isSome) (z : C) :
    o.map (fun _ => z) = o'.map (fun _ => z) := by
  cases o <;> cases o' <;> simp_all

theorem moveToFront_prevOf {c : Chain K V} {id : Nat} {it0 : Item K V} {p : Nat}
    (hne : c.head ≠ some id)
    (hh : alookup c.heap id = some it0) (hpp : it0.prev = some p) (jd : Nat) :
    prevOf (alookup (c.moveToFront id).heap jd) =
      if jd = id then ((alookup c.heap jd).map fun _ => (none : Option Nat))
      else if c.head = some jd then ((alookup c.heap jd).map fun _ => some id)
      else if it0.next = some jd then ((alookup c.heap jd).map fun _ => some p)
      else prevOf (alookup c.heap jd) := by
  have hp0 : ¬ it0.prev = none := by rw [hpp]; exact Option.some_ne_none p
  have hit2 : alookup (amodify c.heap p fun pi => { pi with next := it0.next }) id
      = some it0 := by
    rw [alookup_amodify]
    by_cases hip : id = p
    · subst hip
      rw [if_pos rfl, hh, Option.map_some']
    · rw [if_neg hip, hh]
  unfold Chain.moveToFront
  rw [hh]
  simp only [if_neg hp0]
  by_cases ht : c.tail = some id <;>
  · simp only [ht, ite_true, ite_false, if_pos, if_neg, not_false_iff, hpp, hit2,
      Option.getD_some]
    cases hhdc : c.head with
    | none =>
      cases hnx : it0.next with
      | none =>
        rw [prevOf_amodify_setnextprev]
        by_cases h1 : jd = id
        · subst h1
          rw [if_pos rfl, if_pos rfl]
          exact map_const_of_isSome_eq (isSome_alookup_amodify _ _ _ _) _
        · rw [if_neg h1, if_neg h1, prevOf_amodify_next]
          simp
      | some n =>
        rw [prevOf_amodify_setnextprev]
        by_cases h1 : jd = id
        · subst h1
          rw [if_pos rfl, if_pos rfl]
          refine map_const_of_isSome_eq ?_ _
          rw [isSome_alookup_amodify, isSome_alookup_amodify]
        · rw [if_neg h1, if_neg h1, prevOf_amodify_setprev]
          by_cases h4 : jd = n
          · subst h4
            have hmc : Option.map (fun _ => some p)
                  (alookup (amodify c.heap p fun pi => { pi with next := some jd }) jd) =
                Option.map (fun _ => some p) (alookup c.heap jd) :=
              map_const_of_isSome_eq (isSome_alookup_amodify _ _ _ _) _
            simp [hmc]
          · rw [if_neg h4, prevOf_amodify_next]
            have hc3 : ¬ ((some n : Option Nat) = some jd) := by
              intro hcon
              exact h4 (Option.some.injEq n jd ▸ hcon).symm
            simp [hc3]
    | some h =>
      have hhne : h ≠ id := fun hcon => hne (hhdc.trans (by rw [hcon]))
      cases hnx : it0.next with
      | none =>
        rw [prevOf_amodify_setprev]
        by_cases h3 : jd = h
        · subst h3
          rw [if_pos rfl, if_neg (fun hcon : jd = id => hhne hcon)]
          rw [if_pos rfl]
          refine map_const_of_isSome_eq ?_ _
          rw [isSome_alookup_amodify, isSome_alookup_amodify]
        · rw [if_neg h3, prevOf_amodify_setnextprev]
          by_cases h1 : jd = id
          · subst h1
            rw [if_pos rfl, if_pos rfl]
            exact map_const_of_isSome_eq (isSome_alookup_amodify _ _ _ _) _
          · rw [if_neg h1, if_neg h1, prevOf_amodify_next]
            have hc2 : ¬ ((some h : Option Nat) = some jd) := by
              intro hcon
              exact h3 (Option.some.injEq h jd ▸ hcon).symm
            simp [hc2]
      | some n =>
        rw [prevOf_amodify_setprev]
        by_cases h3 : jd = h
        · subst h3
          rw [if_pos rfl, if_neg (fun hcon : jd = id => hhne hcon)]
          rw [if_pos rfl]
          refine map_const_of_isSome_eq ?_ _
          rw [isSome_alookup_amodify, isSome_alookup_amodify, isSome_alookup_amodify]
        · rw [if_neg h3, prevOf_amodify_setnextprev]
          by_cases h1 : jd = id
          · subst h1
            rw [if_pos rfl, if_pos rfl]
            refine map_const_of_isSome_eq ?_ _
            rw [isSome_alookup_amodify, isSome_alookup_amodify]
          · rw [if_neg h1, if_neg h1, prevOf_amodify_setprev]
            have hc2 : ¬ ((some h : Option Nat) = some jd) := by
              intro hcon
              exact h3 (Option.some.injEq h jd ▸ hcon).symm
            by_cases h4 : jd = n
            · subst h4
              have hmc : Option.map (fun _ => some p)
                    (alookup (amodify c.heap p fun pi => { pi with next := some jd }) jd) =
                  Option.map (fun _ => some p) (alookup c.heap jd) :=
                map_const_of_isSome_eq (isSome_alookup_amodify _ _ _ _) _
              simp [hmc, hc2]
            · rw [if_neg h4, prevOf_amodify_next]
              have hc3 : ¬ ((some n : Option Nat) = some jd) := by
                intro hcon
                exact h4 (Option.some.injEq n jd ▸ hcon).symm
              simp [hc2, hc3]

theorem ChainInv_transport {c c' : Chain K V} (hc : ChainInv c)
    (hS : ∀ jd, (alookup c'.heap jd).isSome = (alookup c.heap jd).isSome)
    (hP : ∀ jd, prevOf (alookup c'.heap jd) = prevOf (alookup c.heap jd))
    (hH : c'.head = c.head) (hN : c'.nextId = c.nextId) : ChainInv c' := by
  constructor
  · intro jd hs
    rw [hN]
    exact hc.fresh jd (by rwa [hS] at hs)
  · intro jd jt hjt
    have hp := hP jd
    rw [hjt] at hp
    rcases hor : alookup c.heap jd with _ | jt0
    · rw [hor] at hp
      simp [prevOf] at hp
    · rw [hor] at hp
      simp only [prevOf, Option.map_some', Option.some.injEq] at hp
      rw [hH, hp]
      exact hc.frontP jd jt0 hor
  · intro h hh
    rw [hH] at hh
    rw [hS]
    exact hc.headAlloc h hh

theorem ChainInv_moveToFront {c : Chain K V} (hc : ChainInv c) (id : Nat) :
    ChainInv (c.moveToFront id) := by
  cases hh : alookup c.heap id with
  | none =>
    have he : c.moveToFront id = c := by
      unfold Chain.moveToFront
      rw [hh]
    rw [he]
    exact hc
  | some it0 =>
    by_cases hp : it0.prev = none
    · have he : c.moveToFront id = c := by
        unfold Chain.moveToFront
        rw [hh]
        exact if_pos hp
      rw [he]
      exact hc
    · obtain ⟨p, hpp⟩ := Option.ne_none_iff_exists'.mp hp
      have hne : c.head ≠ some id := fun hcon => hp ((hc.frontP id it0 hh).mpr hcon)
      have hh5 : (c.moveToFront id).head = some id := moveToFront_head hc.frontP hh
      constructor
      · intro jd hs
        rw [moveToFront_nextId]
        exact hc.fresh jd (by rwa [moveToFront_isSome] at hs)
      · intro jd jt hjt
        have hjs : (alookup c.heap jd).isSome = true := by
          rw [← moveToFront_isSome c id jd, hjt]
          rfl
        obtain ⟨jt0, hjt0⟩ := Option.isSome_iff_exists.mp hjs
        have hpv := moveToFront_prevOf hne hh hpp jd
        rw [hjt, hjt0] at hpv
        simp only [prevOf, Option.map_some'] at hpv
        rw [hh5]
        by_cases h1 : jd = id
        · rw [if_pos h1] at hpv
          simp only [Option.some.injEq] at hpv
          rw [hpv, h1]
          simp
        · rw [if_neg h1] at hpv
          have hrhs : ¬ ((some id : Option Nat) = some jd) := by
            intro hcon
            exact h1 (Option.some.injEq id jd ▸ hcon).symm
          by_cases h2 : c.head = some jd
          · rw [if_pos h2] at hpv
            simp only [Option.some.injEq] at hpv
            rw [hpv]
            simp [hrhs]
          · rw [if_neg h2] at hpv
            by_cases h3 : it0.next = some jd
            · rw [if_pos h3] at hpv
              simp only [Option.some.injEq] at hpv
              rw [hpv]
              simp [hrhs]
            · rw [if_neg h3] at hpv
              simp only [Option.some.injEq] at hpv
              rw [hpv]
              constructor
              · intro hzero
                exact absurd ((hc.frontP jd jt0 hjt0).mp hzero) h2
              · intro hcon
                exact absurd hcon hrhs
      · intro h hcon
        rw [hh5] at hcon
        cases hcon
        rw [moveToFront_isSome, hh]
        rfl

theorem ChainInv_heapmod_val {c : Chain K V} (hc : ChainInv c) (x : Nat) (v : V) :
    ChainInv { c with heap := amodify c.heap x (fun b => { b with val := v }) } := by
  refine ChainInv_transport hc ?_ ?_ rfl rfl
  · intro jd
    exact isSome_alookup_amodify c.heap x _ jd
  · intro jd
    exact prevOf_amodify_val c.heap x v jd

theorem popBack_head (c : Chain K V) : (c.popBack).1.head = c.head := by
  unfold Chain.popBack
  cases c.tail with
  | none => rfl
  | some t =>
    dsimp only
    cases hb : (alookup c.heap t).bind (fun ti => ti.prev) <;> rfl

theorem popBack_nextId (c : Chain K V) : (c.popBack).1.nextId = c.nextId := by
  unfold Chain.popBack
  cases c.tail with
  | none => rfl
  | some t =>
    dsimp only
    cases hb : (alookup c.heap t).bind (fun ti => ti.prev) <;> rfl

theorem popBack_keyOf (c : Chain K V) (jd : Nat) :
    keyOf (alookup (c.popBack).1.heap jd) = keyOf (alookup c.heap jd) := by
  unfold Chain.popBack
  cases c.tail with
  | none => rfl
  | some t =>
    dsimp only
    cases hb : (alookup c.heap t).bind (fun ti => ti.prev) with
    | none => rfl
    | some p => exact keyOf_amodify_next c.heap p none jd

theorem popBack_valOf (c : Chain K V) (jd : Nat) :
    valOf (alookup (c.popBack).1.heap jd) = valOf (alookup c.heap jd) := by
  unfold Chain.popBack
  cases c.tail with
  | none => rfl
  | some t =>
    dsimp only
    cases hb : (alookup c.heap t).bind (fun ti => ti.prev) with
    | none => rfl
    | some p => exact valOf_amodify_next c.heap p none jd

theorem popBack_prevOf (c : Chain K V) (jd : Nat) :
    prevOf (alookup (c.popBack).1.heap jd) = prevOf (alookup c.heap jd) := by
  unfold Chain.popBack
  cases c.tail with
  | none => rfl
  | some t =>
    dsimp only
    cases hb : (alookup c.heap t).bind (fun ti => ti.prev) with
    | none => rfl
    | some p => exact prevOf_amodify_next c.heap p none jd

theorem popBack_isSome (c : Chain K V) (jd : Nat) :
    (alookup (c.popBack).1.heap jd).isSome = (alookup c.heap jd).isSome := by
  unfold Chain.popBack
  cases c.tail with
  | none => rfl
  | some t =>
    dsimp only
    cases hb : (alookup c.heap t).bind (fun ti => ti.prev) with
    | none => rfl
    | some p => exact isSome_alookup_amodify c.heap p _ jd

theorem ChainInv_popBack {c : Chain K V} (hc : ChainInv c) : ChainInv (c.popBack).1 :=
  ChainInv_transport hc (popBack_isSome c) (popBack_prevOf c) (popBack_head c)
    (popBack_nextId c)

theorem pushFront_snd (c : Chain K V) (k : K) (v : V) : (c.pushFront k v).2 = c.nextId := by
  unfold Chain.pushFront
  cases c.head <;> rfl

theorem pushFront_nextId (c : Chain K V) (k : K) (v : V) :
    (c.pushFront k v).1.nextId = c.nextId + 1 := by
  unfold Chain.pushFront
  cases c.head <;> rfl

theorem pushFront_head (c : Chain K V) (k : K) (v : V) :
    (c.pushFront k v).1.head = some c.nextId := by
  unfold Chain.pushFront
  cases c.head <;> rfl

theorem pushFront_lookup_new {c : Chain K V} (hc : ChainInv c) (k : K) (v : V) :
    alookup (c.pushFront k v).1.heap c.nextId =
      some { key := k, val := v, next := c.head, prev := none } := by
  unfold Chain.pushFront
  cases hhd : c.head with
  | none => simp [alookup]
  | some h =>
    have hlt : h < c.nextId := hc.fresh h (hc.headAlloc h hhd)
    have hne : ¬ c.nextId = h := fun hcon => Nat.ne_of_lt hlt hcon.symm
    rw [alookup_amodify, if_neg hne]
    simp [alookup]

theorem pushFront_keyOf_old (c : Chain K V) (k : K) (v : V) (jd : Nat)
    (hne : jd ≠ c.nextId) :
    keyOf (alookup (c.pushFront k v).1.heap jd) = keyOf (alookup c.heap jd) := by
  unfold Chain.pushFront
  cases hhd : c.head with
  | none => simp [alookup, Ne.symm hne]
  | some h =>
    rw [keyOf_amodify_prev]
    simp [alookup, Ne.symm hne]

theorem pushFront_valOf_old (c : Chain K V) (k : K) (v : V) (jd : Nat)
    (hne : jd ≠ c.nextId) :
    valOf (alookup (c.pushFront k v).1.heap jd) = valOf (alookup c.heap jd) := by
  unfold Chain.pushFront
  cases hhd : c.head with
  | none => simp [alookup, Ne.symm hne]
  | some h =>
    rw [valOf_amodify_prev]
    simp [alookup, Ne.symm hne]

theorem pushFront_isSome_old (c : Chain K V) (k : K) (v : V) (jd : Nat)
    (hne : jd ≠ c.nextId) :
    (alookup (c.pushFront k v).1.heap jd).isSome = (alookup c.heap jd).isSome := by
  unfold Chain.pushFront
  cases hhd : c.head with
  | none => simp [alookup, Ne.symm hne]
  | some h =>
    rw [isSome_alookup_amodify]
    simp [alookup, Ne.symm hne]

theorem ChainInv_pushFront {c : Chain K V} (hc : ChainInv c) (k : K) (v : V) :
    ChainInv (c.pushFront k v).1 := by
  constructor
  · intro jd hs
    rw [pushFront_nextId]
    by_cases hj : jd = c.nextId
    · rw [hj]
      exact Nat.lt_succ_self _
    · rw [pushFront_isSome_old c k v jd hj] at hs
      exact Nat.lt_succ_of_lt (hc.fresh jd hs)
  · intro jd jt hjt
    rw [pushFront_head]
    by_cases hj : jd = c.nextId
    · subst hj
      rw [pushFront_lookup_new hc k v] at hjt
      cases hjt
      simp
    · have hrhs : ¬ ((some c.nextId : Option Nat) = some jd) := by
        intro hcon
        exact hj (Option.some.inj hcon).symm
      revert hjt
      unfold Chain.pushFront
      cases hhd : c.head with
      | none =>
        intro hjt
        simp only [alookup, if_neg (Ne.symm hj)] at hjt
        have hfp := hc.frontP jd jt hjt
        rw [hhd] at hfp
        rw [hfp]
        exact iff_of_false (fun hcon => Option.noConfusion hcon) hrhs
      | some h =>
        intro hjt
        rw [alookup_amodify] at hjt
        by_cases hjh : jd = h
        · rw [if_pos hjh] at hjt
          obtain ⟨x, hx, hfx⟩ := Option.map_eq_some'.mp hjt
          rw [← hfx]
          simp [hrhs]
        · rw [if_neg hjh] at hjt
          simp only [alookup, if_neg (Ne.symm hj)] at hjt
          have hfp := hc.frontP jd jt hjt
          rw [hhd] at hfp
          rw [hfp]
          exact iff_of_false (fun hcon => hjh (Option.some.inj hcon).symm) hrhs
  · intro h hcon
    rw [pushFront_head] at hcon
    cases hcon
    rw [pushFront_lookup_new hc k v]
    rfl

theorem keyOf_eq_some {o : Option (Item K V)} {k : K} (h : keyOf o = some k) :
    ∃ it, o = some it ∧ it.key = k := by
  cases o with
  | none => simp [keyOf] at h
  | some it =>
    simp only [keyOf, Option.map_some', Option.some.injEq] at h
    exact ⟨it, rfl, h⟩

end ChainLemmas

section InternalLemmas

variable {K V : Type} [DecidableEq K]

theorem Inv_new (n : Nat) : Inv (Internal.new K V n) := by
  constructor
  · simp [Internal.new]
  · intro k id h
    simp [Internal.new, Chain.new, alookup] at h
  · constructor
    · intro id h
      simp [Internal.new, Chain.new, alookup] at h
    · intro id it h
      simp [Internal.new, Chain.new, alookup] at h
    · intro h hcon
      simp [Internal.new, Chain.new] at hcon

theorem getItem_fst (s : Internal K V) (k : K) :
    (Internal.getItem s k).1 =
      match alookup s.map k with
      | some id => { s with items := Chain.moveToFront s.items id }
      | none => s := by
  unfold Internal.getItem
  cases alookup s.map k <;> rfl

theorem getItem_map (s : Internal K V) (k : K) :
    (Internal.getItem s k).1.map = s.map := by
  unfold Internal.getItem
  cases alookup s.map k <;> rfl

theorem getItem_snd (s : Internal K V) (k : K) :
    (Internal.getItem s k).2 = alookup s.map k := by
  unfold Internal.getItem
  cases alookup s.map k <;> rfl

theorem get_fst (s : Internal K V) (k : K) :
    (LRU.get s k).1 = (Internal.getItem s k).1 := rfl

theorem getMut_fst (s : Internal K V) (k : K) :
    (LRU.getMut s k).1 = (Internal.getItem s k).1 := rfl

theorem Inv_getItem {s : Internal K V} (hs : Inv s) (k : K) :
    Inv (Internal.getItem s k).1 := by
  rw [getItem_fst]
  cases hm : alookup s.map k with
  | none => exact hs
  | some id =>
    constructor
    · exact hs.mapNodup
    · intro k' id' hk'
      obtain ⟨it, hit, hkey⟩ := hs.mapHeap k' id' hk'
      have hko := moveToFront_keyOf s.items id id'
      rw [hit] at hko
      simp only [keyOf, Option.map_some'] at hko
      obtain ⟨it', hit', hk2⟩ := keyOf_eq_some hko
      exact ⟨it', hit', hk2.trans hkey⟩
    · exact ChainInv_moveToFront hs.chain id

theorem Inv_evict {s : Internal K V} (hs : Inv s) :
    Inv (match Chain.popBack s.items with
         | (items1, some t) =>
            { s with
              map := match alookup items1.heap t with
                     | some ti => aerase s.map ti.key
                     | none => s.map,
              items := items1, freed := t :: s.freed }
         | (items1, none) => { s with items := items1 }) := by
  have htr : ∀ k' id', alookup s.map k' = some id' →
      ∃ it, alookup (Chain.popBack s.items).1.heap id' = some it ∧ it.key = k' := by
    intro k' id' hk'
    obtain ⟨it, hit, hkey⟩ := hs.mapHeap k' id' hk'
    have hko := popBack_keyOf s.items id'
    rw [hit] at hko
    simp only [keyOf, Option.map_some'] at hko
    obtain ⟨it', hit', hk2⟩ := keyOf_eq_some hko
    exact ⟨it', hit', hk2.trans hkey⟩
  cases hpb : Chain.popBack s.items with
  | mk items1 popres =>
    have hitems1 : items1 = (Chain.popBack s.items).1 := by rw [hpb]
    cases popres with
    | none =>
      dsimp only
      refine ⟨hs.mapNodup, ?_, ?_⟩
      · intro k' id' hk'
        rw [hitems1]
        exact htr k' id' hk'
      · rw [hitems1]
        exact ChainInv_popBack hs.chain
    | some t =>
      dsimp only
      cases hti : alookup items1.heap t with
      | none =>
        dsimp only
        refine ⟨hs.mapNodup, ?_, ?_⟩
        · intro k' id' hk'
          rw [hitems1]
          exact htr k' id' hk'
        · rw [hitems1]
          exact ChainInv_popBack hs.chain
      | some ti =>
        dsimp only
        refine ⟨nodup_aerase s.map ti.key hs.mapNodup, ?_, ?_⟩
        · intro k' id' hk'
          rw [hitems1]
          exact htr k' id' (alookup_aerase_sub s.map ti.key k' id' hs.mapNodup hk')
        · rw [hitems1]
          exact ChainInv_popBack hs.chain

theorem Inv_pushIndex {s1 : Internal K V} (h1 : Inv s1) (k : K) (v : V) :
    Inv { s1 with
      map := match alookup (Chain.pushFront s1.items k v).1.heap
                 (Chain.pushFront s1.items k v).2 with
             | some it2 => ainsert s1.map it2.key (Chain.pushFront s1.items k v).2
             | none => s1.map,
      items := (Chain.pushFront s1.items k v).1 } := by
  rw [pushFront_snd, pushFront_lookup_new h1.chain]
  constructor
  · exact nodup_ainsert s1.map k s1.items.nextId h1.mapNodup
  · intro k' id' hk'
    simp only [alookup_ainsert] at hk'
    by_cases hkk : k' = k
    · rw [if_pos hkk] at hk'
      cases hk'
      rw [pushFront_lookup_new h1.chain]
      exact ⟨_, rfl, hkk.symm⟩
    · rw [if_neg hkk] at hk'
      obtain ⟨it', hit', hkey'⟩ := h1.mapHeap k' id' hk'
      have hlt : id' < s1.items.nextId := h1.chain.fresh id' (by rw [hit']; rfl)
      have hko := pushFront_keyOf_old s1.items k v id' (Nat.ne_of_lt hlt)
      rw [hit'] at hko
      simp only [keyOf, Option.map_some'] at hko
      obtain ⟨it2, hit2, hk2⟩ := keyOf_eq_some hko
      exact ⟨it2, hit2, hk2.trans hkey'⟩
  · exact ChainInv_pushFront h1.chain k v

theorem Inv_put {s : Internal K V} (hs : Inv s) (k : K) (v : V) :
    Inv (Internal.put s k v).1 := by
  unfold Internal.put
  cases hm : alookup s.map k with
  | some id =>
    obtain ⟨it, hit, hkey⟩ := hs.mapHeap k id hm
    dsimp only
    rw [hit]
    dsimp only
    constructor
    · exact hs.mapNodup
    · intro k' id' hk'
      obtain ⟨it', hit', hkey'⟩ := hs.mapHeap k' id' hk'
      have h1 : keyOf (alookup (amodify s.items.heap id
          (fun ii => { ii with val := v })) id') = some it'.key := by
        rw [keyOf_amodify_val, hit']
        rfl
      have h2 := moveToFront_keyOf
        { s.items with heap := amodify s.items.heap id (fun ii => { ii with val := v }) } id id'
      rw [h1] at h2
      obtain ⟨it2, hit2, hk2⟩ := keyOf_eq_some h2
      exact ⟨it2, hit2, hk2.trans hkey'⟩
    · exact ChainInv_moveToFront (ChainInv_heapmod_val hs.chain id v) id
  | none =>
    dsimp only
    by_cases hcond : s.map.length ≥ s.max_len
    · rw [if_pos hcond]
      exact Inv_pushIndex (Inv_evict hs) k v
    · rw [if_neg hcond]
      exact Inv_pushIndex hs k v

theorem Reachable_Inv {s : Internal K V} (hs : Reachable s) : Inv s := by
  induction hs with
  | new n => exact Inv_new n
  | put k v _ ih => exact Inv_put ih k v
  | get k _ ih => rw [get_fst]; exact Inv_getItem ih k
  | getMut k _ ih => rw [getMut_fst]; exact Inv_getItem ih k

theorem get_snd (s : Internal K V) (k : K) : (LRU.get s k).2 = lookupVal s k := by
  unfold LRU.get lookupVal Internal.getItem
  cases hm : alookup s.map k with
  | none => rfl
  | some id =>
    dsimp only [Option.bind_some]
    exact moveToFront_valOf s.items id id

theorem getMut_snd (s : Internal K V) (k : K) : (LRU.getMut s k).2 = lookupVal s k := by
  unfold LRU.getMut lookupVal Internal.getItem
  cases hm : alookup s.map k with
  | none => rfl
  | some id =>
    dsimp only [Option.bind_some]
    exact moveToFront_valOf s.items id id

theorem put_snd (s : Internal K V) (k : K) (v : V) :
    (Internal.put s k v).2 = lookupVal s k := by
  unfold Internal.put lookupVal
  cases hm : alookup s.map k with
  | none => rfl
  | some id =>
    dsimp only
    cases hh : alookup s.items.heap id with
    | none => simp [hh, valOf]
    | some it => simp [hh, valOf]

theorem put_hit_fst {s : Internal K V} {k : K} {id : Nat} {it : Item K V} (v : V)
    (hm : alookup s.map k = some id) (hh : alookup s.items.heap id = some it) :
    (Internal.put s k v).1 =
      { s with items :=
        (Chain.moveToFront
          { s.items with heap := amodify s.items.heap id (fun ii => { ii with val := v }) }
          id) } := by
  unfold Internal.put
  rw [hm]
  dsimp only
  rw [hh]

theorem lookupVal_getItem (s : Internal K V) (k k' : K) :
    lookupVal (Internal.getItem s k).1 k' = lookupVal s k' := by
  rw [getItem_fst]
  cases hm : alookup s.map k with
  | none => rfl
  | some id =>
    unfold lookupVal
    dsimp only
    cases hm' : alookup s.map k' with
    | none => rfl
    | some id' =>
      exact moveToFront_valOf s.items id id'

theorem getItem_absent {s : Internal K V} {k : K} (h : lookupVal s k = none) :
    (Internal.getItem s k).1 = s := by
  rw [getItem_fst]
  cases hm : alookup s.map k with
  | none => rfl
  | some id =>
    unfold lookupVal at h
    rw [hm] at h
    have h2 : valOf (alookup s.items.heap id) = none := h
    have hid : alookup s.items.heap id = none := by
      cases hl : alookup s.items.heap id with
      | none => rfl
      | some it => rw [hl] at h2; exact absurd h2 (by simp [valOf])
    have hmtf : Chain.moveToFront s.items id = s.items := by
      unfold Chain.moveToFront
      rw [hid]
    dsimp only
    rw [hmtf]

theorem pushIndex_front {s1 : Internal K V} (h1 : Inv s1) (k : K) (v : V) :
    ∃ id,
      alookup (match alookup (Chain.pushFront s1.items k v).1.heap
                   (Chain.pushFront s1.items k v).2 with
               | some it2 => ainsert s1.map it2.key (Chain.pushFront s1.items k v).2
               | none => s1.map) k = some id ∧
      (Chain.pushFront s1.items k v).1.head = some id := by
  rw [pushFront_snd, pushFront_lookup_new h1.chain]
  refine ⟨s1.items.nextId, ?_, pushFront_head s1.items k v⟩
  dsimp only
  rw [alookup_ainsert, if_pos rfl]

theorem put_hit_lookupVal {s : Internal K V} {k : K} {id : Nat} {it : Item K V} (v : V)
    (hm : alookup s.map k = some id) (hh : alookup s.items.heap id = some it) (k' : K) :
    lookupVal (Internal.put s k v).1 k' =
      (alookup s.map k').bind (fun id' =>
        if id' = id then some v else valOf (alookup s.items.heap id')) := by
  rw [put_hit_fst v hm hh]
  unfold lookupVal
  dsimp only
  cases hm' : alookup s.map k' with
  | none => rfl
  | some id' =>
    rw [bind_some_eq, bind_some_eq]
    by_cases hii : id' = id
    · rw [if_pos hii, hii, moveToFront_valOf]
      dsimp only
      rw [show alookup (amodify s.items.heap id (fun ii => { ii with val := v })) id
          = some { it with val := v } from by rw [alookup_amodify, if_pos rfl, hh]; rfl]
      rfl
    · rw [if_neg hii, moveToFront_valOf]
      dsimp only
      rw [show alookup (amodify s.items.heap id (fun ii => { ii with val := v })) id'
          = alookup s.items.heap id' from by rw [alookup_amodify, if_neg hii]]

theorem lookupVal_isSome_destruct {s : Internal K V} {k : K}
    (h : (lookupVal s k).isSome = true) :
    ∃ id it, alookup s.map k = some id ∧ alookup s.items.heap id = some it := by
  unfold lookupVal at h
  cases hm : alookup s.map k with
  | none => rw [hm] at h; simp at h
  | some id =>
    rw [hm, bind_some_eq] at h
    cases hh : alookup s.items.heap id with
    | none => rw [hh] at h; simp [valOf] at h
    | some it => exact ⟨id, it, rfl, hh⟩

theorem lookupVal_eq_some_destruct {s : Internal K V} {k : K} {v0 : V}
    (h : lookupVal s k = some v0) :
    ∃ id it, alookup s.map k = some id ∧ alookup s.items.heap id = some it ∧
      it.val = v0 := by
  unfold lookupVal at h
  cases hm : alookup s.map k with
  | none => rw [hm] at h; simp at h
  | some id =>
    rw [hm, bind_some_eq] at h
    cases hh : alookup s.items.heap id with
    | none => rw [hh] at h; simp [valOf] at h
    | some it =>
      rw [hh] at h
      simp only [valOf, Option.map_some', Option.some.injEq] at h
      exact ⟨id, it, rfl, hh, h⟩

end InternalLemmas

section Claims

variable {K V : Type} [DecidableEq K]

/-- C6: for every reachable cache state in which key `k` currently stores
`v0`, `put k v1` returns `some v0`, leaves `count` unchanged, stores `v1`
under `k`, and leaves every other key's stored value exactly as it was
(no entry is evicted). -/
theorem put_existing_updates (s : Internal K V) (hs : Reachable s) (k : K)
    (v1 v0 : V) (hk : lookupVal s k = some v0) :
    (LRU.put s k v1).2 = some v0 ∧
    LRU.count (LRU.put s k v1).1 = LRU.count s ∧
    lookupVal (LRU.put s k v1).1 k = some v1 ∧
    ∀ k', k' ≠ k → lookupVal (LRU.put s k v1).1 k' = lookupVal s k' := by
  have hInv := Reachable_Inv hs
  obtain ⟨id, it, hm, hh, hval⟩ := lookupVal_eq_some_destruct hk
  refine ⟨?_, ?_, ?_, ?_⟩
  · show (Internal.put s k v1).2 = some v0
    rw [put_snd, hk]
  · show LRU.count (Internal.put s k v1).1 = LRU.count s
    rw [put_hit_fst v1 hm hh]
    rfl
  · show lookupVal (Internal.put s k v1).1 k = some v1
    rw [put_hit_lookupVal v1 hm hh k, hm, bind_some_eq, if_pos rfl]
  · intro k' hkk
    show lookupVal (Internal.put s k v1).1 k' = lookupVal s k'
    rw [put_hit_lookupVal v1 hm hh k']
    unfold lookupVal
    cases hm' : alookup s.map k' with
    | none => rfl
    | some id' =>
      rw [bind_some_eq, bind_some_eq]
      have hne : ¬ id' = id := by
        intro he
        obtain ⟨it1, hit1, hkey1⟩ := hInv.mapHeap k id hm
        obtain ⟨it2, hit2, hkey2⟩ := hInv.mapHeap k' id' hm'
        rw [he, hit1] at hit2
        cases hit2
        exact hkk (hkey2.symm.trans hkey1)
      rw [if_neg hne]

/-- Witness for C6 at a concrete reachable state: after `new(3)` and
`put 1 10`, key 1 stores 10, and `put 1 20` returns `some 10`. -/
theorem put_existing_updates_witness :
    lookupVal ((LRU.put (LRU.new Nat Nat 3) 1 10).1) 1 = some 10 ∧
    (LRU.put ((LRU.put (LRU.new Nat Nat 3) 1 10).1) 1 20).2 = some 10 :=
  ⟨by decide,
    (put_existing_updates ((LRU.put (LRU.new Nat Nat 3) 1 10).1)
      (Reachable.put 1 10 (Reachable.new 3)) 1 20 10 (by decide)).1⟩

/-- C7: after a `put` of key `k`, or a `get` of `k` that finds a value, the
entry the index holds for `k` is the chain's front (head) — the
most-recently-used position. -/
theorem access_moves_to_front (s : Internal K V) (hs : Reachable s) (k : K) (v : V) :
    (∃ id, alookup (LRU.put s k v).1.map k = some id ∧
      (LRU.put s k v).1.items.head = some id) ∧
    ((LRU.get s k).2.isSome = true →
      ∃ id, alookup (LRU.get s k).1.map k = some id ∧
        (LRU.get s k).1.items.head = some id) := by
  have hInv := Reachable_Inv hs
  constructor
  · show ∃ id, alookup (Internal.put s k v).1.map k = some id ∧
      (Internal.put s k v).1.items.head = some id
    cases hm : alookup s.map k with
    | some id =>
      obtain ⟨it, hh, hkey⟩ := hInv.mapHeap k id hm
      rw [put_hit_fst v hm hh]
      have hlook : alookup (amodify s.items.heap id (fun ii => { ii with val := v })) id
          = some { it with val := v } := by
        rw [alookup_amodify, if_pos rfl, hh]
        rfl
      exact ⟨id, hm,
        moveToFront_head (ChainInv_heapmod_val hInv.chain id v).frontP hlook⟩
    | none =>
      unfold Internal.put
      rw [hm]
      dsimp only
      by_cases hcond : s.map.length ≥ s.max_len
      · rw [if_pos hcond]
        exact pushIndex_front (Inv_evict hInv) k v
      · rw [if_neg hcond]
        exact pushIndex_front hInv k v
  · intro hS
    rw [get_snd] at hS
    obtain ⟨id, it, hm, hh⟩ := lookupVal_isSome_destruct hS
    rw [get_fst, getItem_fst, hm]
    dsimp only
    exact ⟨id, hm, moveToFront_head hInv.chain.frontP hh⟩

/-- Witness for C7 at a concrete reachable state: the entry pushed by
`put 1 10` on a fresh cache is both indexed under 1 and at the chain
front. -/
theorem access_moves_to_front_witness :
    ∃ id, alookup (LRU.put (LRU.new Nat Nat 2) 1 10).1.map 1 = some id ∧
      (LRU.put (LRU.new Nat Nat 2) 1 10).1.items.head = some id :=
  (access_moves_to_front (LRU.new Nat Nat 2) (Reachable.new 2) 1 10).1

/-- C8: all public operations are total, and absence is an optional result:
`put` returns `none` exactly when the key stored nothing and `some v0`
exactly when it stored `v0`; `get` and `get_mut` return `none` exactly when
the key stores nothing. -/
theorem operations_total_absence_optional (s : Internal K V) (k : K) (v : V) :
    ((LRU.put s k v).2 = none ↔ lookupVal s k = none) ∧
    (∀ v0 : V, (LRU.put s k v).2 = some v0 ↔ lookupVal s k = some v0) ∧
    ((LRU.get s k).2 = none ↔ lookupVal s k = none) ∧
    ((LRU.getMut s k).2 = none ↔ lookupVal s k = none) := by
  have hp : (LRU.put s k v).2 = lookupVal s k := put_snd s k v
  have hg := get_snd s k
  have hgm := getMut_snd s k
  exact ⟨by rw [hp], fun v0 => by rw [hp], by rw [hg], by rw [hgm]⟩

/-- C10: `get`, `get_mut` and `count` never change `count()` or any stored
key/value binding, and a `get`/`get_mut` of an absent key leaves the entire
cache state unchanged (`count` reads the state without touching it). -/
theorem read_ops_preserve_state (s : Internal K V) (k : K) :
    LRU.count (LRU.get s k).1 = LRU.count s ∧
    LRU.count (LRU.getMut s k).1 = LRU.count s ∧
    (∀ k', lookupVal (LRU.get s k).1 k' = lookupVal s k') ∧
    (∀ k', lookupVal (LRU.getMut s k).1 k' = lookupVal s k') ∧
    (lookupVal s k = none → (LRU.get s k).1 = s ∧ (LRU.getMut s k).1 = s) := by
  refine ⟨?_, ?_, ?_, ?_, ?_⟩
  · rw [get_fst]
    show (Internal.getItem s k).1.map.length = s.map.length
    rw [getItem_map]
  · rw [getMut_fst]
    show (Internal.getItem s k).1.map.length = s.map.length
    rw [getItem_map]
  · intro k'
    rw [get_fst]
    exact lookupVal_getItem s k k'
  · intro k'
    rw [getMut_fst]
    exact lookupVal_getItem s k k'
  · intro h
    exact ⟨by rw [get_fst]; exact getItem_absent h,
      by rw [getMut_fst]; exact getItem_absent h⟩

/-- Witness for C10 at a concrete state: on a fresh cache, key 7 is absent
and a `get` of it leaves the state unchanged. -/
theorem read_ops_preserve_state_witness :
    lookupVal (LRU.new Nat Nat 2) 7 = none ∧
    (LRU.get (LRU.new Nat Nat 2) 7).1 = LRU.new Nat Nat 2 :=
  ⟨by decide, ((read_ops_preserve_state (LRU.new Nat Nat 2) 7).2.2.2.2 (by decide)).1⟩

/-- C4: with capacity 3, putting keys 1, 2, 3 and then 4 evicts exactly
key 1: `count()` is 3, keys 2, 3, 4 are retrievable with their values, and
key 1 is not found. -/
theorem eviction_order_capacity_three :
    (let s4 := (LRU.put (LRU.put (LRU.put (LRU.put
        (LRU.new Nat Nat 3) 1 10).1 2 20).1 3 30).1 4 40).1
     LRU.count s4 = 3 ∧
     (LRU.get s4 1).2 = none ∧
     (LRU.get s4 2).2 = some 20 ∧
     (LRU.get s4 3).2 = some 30 ∧
     (LRU.get s4 4).2 = some 40) := by
  decide

/-- C1 is violated by the code: with `max_len = 1`, after puts of keys
1, 2, 3 the cache holds 2 entries — `count() = 2 > max_len`.  The first
eviction pops the only chain entry; `pop_back` clears `tail` but leaves
`head` pointing at the popped entry, so the next `push_front` sees a
non-empty chain and never restores `tail`; with `tail` stuck at none, the
second eviction finds nothing to pop and the insert goes through without
eviction. -/
theorem capacity_bound_violated_at_max_len_one :
    (let s3 := (LRU.put (LRU.put (LRU.put
        (LRU.new Nat Nat 1) 1 10).1 2 20).1 3 30).1
     s3.max_len = 1 ∧ LRU.count s3 = 2 ∧ s3.items.tail = none) := by
  decide

/-- C2 is violated by the code: in the same `max_len = 1` run, the chain
walked front-to-back yields the keys `[3, 2, 1]` — the evicted entry 1 is
still linked from the head — while `count()` is 2 and `get 1` reports
not-found, so the chain's key set differs from the retrievable key set and
the chain length differs from `count()`. -/
theorem chain_index_desync_after_eviction :
    (let s3 := (LRU.put (LRU.put (LRU.put
        (LRU.new Nat Nat 1) 1 10).1 2 20).1 3 30).1
     chainKeys s3.items = [3, 2, 1] ∧
     LRU.count s3 = 2 ∧
     (LRU.get s3 1).2 = none ∧
     (LRU.get s3 2).2 = some 20 ∧
     (LRU.get s3 3).2 = some 30) := by
  decide

/-- C3 is violated by the code: popping the sole entry of a one-entry chain
returns it and makes a further `pop_back` signal empty, but the chain is
not left empty — `head` still points at the popped entry — and a subsequent
`push_front` links the new entry as the front yet, because `head` was not
none, never sets it as the back: `tail` remains none. -/
theorem pop_back_leaves_stale_head :
    (let c1 := (Chain.pushFront (Chain.new Nat Nat) 1 10).1
     let r := Chain.popBack c1
     r.2 = some (Chain.pushFront (Chain.new Nat Nat) 1 10).2 ∧
     r.1.tail = none ∧
     (Chain.popBack r.1).2 = none ∧
     r.1.head = some (Chain.pushFront (Chain.new Nat Nat) 1 10).2 ∧
     (Chain.pushFront r.1 2 20).1.head = some (Chain.pushFront r.1 2 20).2 ∧
     (Chain.pushFront r.1 2 20).1.tail = none) := by
  decide

/-- C5 is violated by the code in its final clause: the claimed two-put
scenario holds (`count() = 1`, "a" not found, "b" found), but the cache
does not keep retaining at most the most recent insertion — a third put
leaves `count() = 2` with both "b" and "c" retrievable, because the first
eviction corrupted the chain (`tail` none, stale `head` link) and no later
put ever evicts. -/
theorem zero_capacity_retains_two_entries :
    (let s2 := (LRU.put (LRU.put (LRU.new String Nat 0) "a" 1).1 "b" 2).1
     let s3 := (LRU.put s2 "c" 3).1
     LRU.count s2 = 1 ∧
     (LRU.get s2 "a").2 = none ∧
     (LRU.get s2 "b").2 = some 2 ∧
     LRU.count s3 = 2 ∧
     (LRU.get s3 "b").2 = some 2 ∧
     (LRU.get s3 "c").2 = some 3) := by
  decide

/-- C9 is violated by the code: after `new(1)` and one `put`, the entry
with id 0 exists, no eviction has released it, and the cache teardown
(`Drop`, which runs `Box::from(item.as_ptr())` — boxing the pointer value
instead of `Box::from_raw`) releases nothing: the `freed` record stays
empty, so the entry is never released. -/
theorem drop_releases_no_entries :
    (let s := (LRU.put (LRU.new Nat Nat 1) 1 10).1
     (alookup s.items.heap 0).isSome = true ∧
     s.freed = [] ∧
     (Internal.dropAll s).freed = [] ∧
     (Internal.dropAll s).items.tail = none) := by
  decide

end Claims

end Rslru
